import Mathlib

/-!
# Verification of the csvdl core (`src/csvdl_core.py`)

Shallow embedding of the download-core module: filename/extension inference,
job preparation, the single-download executor and the concurrency-bounded
download queue.  Python strings are modelled as `List Char`; the filesystem,
the metadata probe and the transport (curl subprocesses) are external
collaborators and are modelled as explicit oracle parameters.  Python
exceptions are modelled with `Except`.
-/

namespace Csvdl

/-- Characters of a Python `str`; all string logic is modelled on `List Char`. -/
abbrev Str := List Char

/-- Python `s.lower()` (ASCII case folding, which is what the source relies on). -/
def lower (s : Str) : Str := s.map Char.toLower

/-- Python `s.split(c, 1)[0]` for a single-character separator `c`:
everything before the first occurrence of `c`. -/
def takeUntil (c : Char) (s : Str) : Str := s.takeWhile (fun x => decide (x ≠ c))

/-- Everything after the last occurrence of `c` (the whole string if `c` is absent). -/
def afterLast (c : Char) : Str → Str
  | [] => []
  | a :: t => if c ∈ t then afterLast c t else if a = c then t else a :: t

/-- `os.path.basename` on POSIX: everything after the last slash. -/
def basename (s : Str) : Str := afterLast '/' s

theorem afterLast_of_not_mem {c : Char} {s : Str} (h : c ∉ s) : afterLast c s = s := by
  induction s with
  | nil => rfl
  | cons a t ih =>
    simp only [List.mem_cons, not_or] at h
    have ha : ¬a = c := fun hh => h.1 hh.symm
    simp [afterLast, h.2, ha, ih h.2]

theorem not_mem_afterLast (c : Char) (s : Str) : c ∉ afterLast c s := by
  induction s with
  | nil => simp [afterLast]
  | cons a t ih =>
    by_cases hm : c ∈ t
    · simp only [afterLast, if_pos hm]
      exact ih
    · by_cases ha : a = c
      · simp [afterLast, hm, ha]
      · simp [afterLast, hm, ha, Ne.symm ha]

theorem afterLast_suffix (c : Char) (s : Str) : afterLast c s <:+ s := by
  induction s with
  | nil => simp [afterLast]
  | cons a t ih =>
    by_cases hm : c ∈ t
    · have he : afterLast c (a :: t) = afterLast c t := by simp [afterLast, hm]
      rw [he]
      exact ih.trans (List.suffix_cons a t)
    · by_cases ha : a = c
      · have he : afterLast c (a :: t) = t := by simp [afterLast, hm, ha]
        rw [he]
        exact List.suffix_cons a t
      · simp [afterLast, hm, ha]

theorem cons_afterLast_suffix {c : Char} {s : Str} (h : c ∈ s) :
    c :: afterLast c s <:+ s := by
  induction s with
  | nil => simp at h
  | cons a t ih =>
    by_cases hm : c ∈ t
    · have he : afterLast c (a :: t) = afterLast c t := by simp [afterLast, hm]
      rw [he]
      exact (ih hm).trans (List.suffix_cons a t)
    · have ha : a = c := by
        rcases List.mem_cons.mp h with h1 | h1
        · exact h1.symm
        · exact absurd h1 hm
      have he : afterLast c (a :: t) = t := by simp [afterLast, hm, ha]
      rw [he, ha]

theorem basename_no_slash (s : Str) : '/' ∉ basename s := not_mem_afterLast '/' s

theorem basename_of_no_slash {s : Str} (h : '/' ∉ s) : basename s = s :=
  afterLast_of_not_mem h

theorem basename_idem (s : Str) : basename (basename s) = basename s :=
  basename_of_no_slash (basename_no_slash s)

/-- `os.path.splitext`: split off the extension at the last dot of the basename,
unless every character of the basename before that dot is itself a dot
(so `.mkv` and `..mkv` have no extension, exactly as in `posixpath.splitext`). -/
def splitext (p : Str) : Str × Str :=
  if '.' ∈ (basename p).dropWhile (fun c => decide (c = '.')) then
    let e := '.' :: afterLast '.' (basename p)
    (p.take (p.length - e.length), e)
  else (p, [])

theorem splitext_snd_suffix (p : Str) : (splitext p).2 <:+ p := by
  unfold splitext
  split
  · rename_i h
    have hdot : '.' ∈ basename p :=
      List.dropWhile_sublist (l := basename p) (p := fun c => decide (c = '.')) |>.mem h
    exact (cons_afterLast_suffix hdot).trans ((afterLast_suffix '/' p))
  · simp

theorem suffix_take_append {e p : Str} (h : e <:+ p) :
    p.take (p.length - e.length) ++ e = p := by
  obtain ⟨u, hu⟩ := h
  subst hu
  have hlen : (u ++ e).length - e.length = u.length := by simp
  rw [hlen, List.take_left]

theorem splitext_append (p : Str) : (splitext p).1 ++ (splitext p).2 = p := by
  unfold splitext
  split
  · rename_i h
    have hdot : '.' ∈ basename p :=
      List.dropWhile_sublist (l := basename p) (p := fun c => decide (c = '.')) |>.mem h
    exact suffix_take_append ((cons_afterLast_suffix hdot).trans (afterLast_suffix '/' p))
  · simp

theorem splitext_fst_pre (p : Str) : (splitext p).1 <+: p :=
  ⟨(splitext p).2, splitext_append p⟩

theorem splitext_snd_cases (p : Str) :
    (splitext p).2 = [] ∨ ∃ r, (splitext p).2 = '.' :: r ∧ '.' ∉ r := by
  unfold splitext
  split
  · exact Or.inr ⟨afterLast '.' (basename p), rfl, not_mem_afterLast '.' (basename p)⟩
  · simp

theorem splitext_snd_ne_nil_dot_mem {p : Str} (h : (splitext p).2 ≠ []) :
    '.' ∈ (basename p).dropWhile (fun c => decide (c = '.')) := by
  by_contra hc
  apply h
  unfold splitext
  simp [hc]

/-- Structural prefix test, Python `s.startswith(pat)`. -/
def isPre : Str → Str → Bool
  | [], _ => true
  | _ :: _, [] => false
  | a :: as, b :: bs => a == b && isPre as bs

theorem isPre_iff {p s : Str} : isPre p s = true ↔ p <+: s := by
  induction p generalizing s with
  | nil => simp [isPre]
  | cons a as ih =>
    cases s with
    | nil => simp [isPre]
    | cons b bs =>
      simp only [isPre, Bool.and_eq_true, beq_iff_eq, List.cons_prefix_cons, ih]

/-- Structural suffix test, Python `s.endswith(pat)`. -/
def isSuf (p s : Str) : Bool := isPre p.reverse s.reverse

theorem isSuf_iff {p s : Str} : isSuf p s = true ↔ p <:+ s := by
  unfold isSuf
  rw [isPre_iff, List.reverse_prefix]

/-- Substring test, Python `pat in s`. -/
def hasSub (pat : Str) : Str → Bool
  | [] => isPre pat []
  | c :: t => isPre pat (c :: t) || hasSub pat t

/-- The part after the first occurrence of `pat` (meaningful when `pat` occurs). -/
def afterSub (pat : Str) : Str → Str
  | [] => []
  | c :: t => if isPre pat (c :: t) then (c :: t).drop pat.length else afterSub pat t

/-- Python `s.split(pat, 1)[-1]`: the part after the first occurrence of `pat`,
or `s` itself when `pat` does not occur. -/
def pySplitTail (pat s : Str) : Str := if hasSub pat s then afterSub pat s else s

/-- Python `s.strip(chars)`: drop the given characters from both ends. -/
def pyStripSet (cs : List Char) (s : Str) : Str :=
  ((s.dropWhile (fun c => decide (c ∈ cs))).reverse.dropWhile (fun c => decide (c ∈ cs))).reverse

/-- The whitespace characters stripped by Python `s.strip()`. -/
def wsChars : List Char := [' ', '\t', '\n', '\r', '\x0b', '\x0c']

/-- Python `s.strip()`. -/
def pyStrip (s : Str) : Str := pyStripSet wsChars s

/-- Python `s.splitlines()` for the line breaks seen in HTTP header text
(`\r\n`, `\r`, `\n`); no trailing empty line for a trailing break. -/
def splitlinesAux : Str → Str → List Str
  | [], [] => []
  | [], acc => [acc.reverse]
  | '\r' :: '\n' :: t, acc => acc.reverse :: splitlinesAux t []
  | '\r' :: t, acc => acc.reverse :: splitlinesAux t []
  | '\n' :: t, acc => acc.reverse :: splitlinesAux t []
  | c :: t, acc => splitlinesAux t (c :: acc)

def splitlines (s : Str) : List Str := splitlinesAux s []

/-- The characters stripped from a disposition filename, `part.strip("\x22\x27\r; ")`. -/
def dispStripChars : List Char := ['"', '\'', '\r', ';', ' ']

/-- The loop body of `_disposition_filename` (lines 224-229): a line yields a
name when it starts with `content-disposition:` (case-insensitively) and
mentions `filename=`; the name is the basename of the stripped tail. -/
def dispositionOfLine (line : Str) : Option Str :=
  if isPre ("content-disposition:".data) (lower line) && hasSub ("filename=".data) (lower line) then
    some (basename (pyStripSet dispStripChars (pyStrip (pySplitTail ("filename=".data) line))))
  else none

/-- `_disposition_filename` (lines 223-230): first matching line wins. -/
def _disposition_filename (headers : Str) : Option Str :=
  (splitlines headers).findSome? dispositionOfLine

/-- The loop body of `_redirect_basename` (lines 234-236): each `location:`
line overwrites the previously seen location. -/
def locationOfLine (acc : Option Str) (line : Str) : Option Str :=
  if isPre ("location:".data) (lower line) then some (pyStrip (pySplitTail (":".data) line))
  else acc

/-- `_redirect_basename` (lines 232-240): the basename of the last redirect
location, after stripping query string and fragment; `None` when no location
was seen or the last one is empty. -/
def _redirect_basename (headers : Str) : Option Str :=
  match (splitlines headers).foldl locationOfLine none with
  | some l => if l ≠ [] then some (basename (takeUntil '#' (takeUntil '?' l))) else none
  | none => none

/-- Decimal value of a digit string. -/
def digitsVal (s : Str) : Nat := s.foldl (fun a c => a * 10 + (c.toNat - ('0').toNat)) 0

/-- Python `int(s)` on an already-stripped string, modelled for optionally
signed decimal digit strings; anything else raises in Python and is `none` here. -/
def pyInt (s : Str) : Option Int :=
  match s with
  | '+' :: r => if r ≠ [] ∧ r.all Char.isDigit then some (digitsVal r) else none
  | '-' :: r => if r ≠ [] ∧ r.all Char.isDigit then some (-(digitsVal r : Int)) else none
  | _ => if s ≠ [] ∧ s.all Char.isDigit then some (digitsVal s) else none

/-- The loop body of `_content_length` (lines 245-250): the last parsable
`content-length:` value wins; an unparsable one is ignored. -/
def contentLengthOfLine (acc : Option Int) (line : Str) : Option Int :=
  if isPre ("content-length:".data) (lower line) then
    match pyInt (pyStrip (pySplitTail (":".data) line)) with
    | some n => some n
    | none => acc
  else acc

/-- `_content_length` (lines 242-251). -/
def _content_length (headers : Str) : Option Int :=
  (splitlines headers).foldl contentLengthOfLine none

/-- `url_matches_extension` (lines 253-259). -/
def url_matches_extension (url desired_ext : Str) : Bool :=
  if isSuf ('.' :: desired_ext) (lower url) then true
  else if isSuf ('/' :: desired_ext) (lower url)
      || hasSub ('/' :: (desired_ext ++ ['?'])) (lower url)
      || hasSub ('/' :: (desired_ext ++ ['#'])) (lower url) then true
  else false

/-- Python `s.split(c)` for a single-character separator. -/
def splitOnChar (c : Char) : Str → List Str
  | [] => [[]]
  | x :: xs =>
    if x = c then [] :: splitOnChar c xs
    else
      match splitOnChar c xs with
      | h :: t => (x :: h) :: t
      | [] => [[x]]

theorem splitOnChar_not_mem (c : Char) (s : Str) : ∀ l ∈ splitOnChar c s, c ∉ l := by
  induction s with
  | nil =>
    intro l hl
    simp only [splitOnChar, List.mem_singleton] at hl
    simp [hl]
  | cons x xs ih =>
    intro l hl
    by_cases hx : x = c
    · simp only [splitOnChar, if_pos hx, List.mem_cons] at hl
      rcases hl with h1 | h1
      · simp [h1]
      · exact ih l h1
    · simp only [splitOnChar, if_neg hx] at hl
      cases hrec : splitOnChar c xs with
      | nil => simp [hrec, List.mem_singleton] at hl; simp [hl, Ne.symm hx]
      | cons h t =>
        rw [hrec] at hl
        rcases List.mem_cons.mp hl with h1 | h1
        · subst h1
          intro hmem
          rcases List.mem_cons.mp hmem with h2 | h2
          · exact hx h2.symm
          · exact ih h (hrec ▸ List.mem_cons_self h t) h2
        · exact ih l (hrec ▸ List.mem_cons_of_mem h h1)

/-- The synthetic-name stem of line 271: the URL's second-to-last
slash-separated segment, or the literal `download`. -/
def fallbackStem (url : Str) : Str :=
  if 2 ≤ (splitOnChar '/' url).length then
    (splitOnChar '/' url).getD ((splitOnChar '/' url).length - 2) []
  else ("download".data)

theorem fallbackStem_no_slash (url : Str) : '/' ∉ fallbackStem url := by
  unfold fallbackStem
  split
  · rename_i h
    have hlt : (splitOnChar '/' url).length - 2 < (splitOnChar '/' url).length := by omega
    have hmem : (splitOnChar '/' url).getD ((splitOnChar '/' url).length - 2) []
        ∈ splitOnChar '/' url := by
      rw [List.getD_eq_getElem _ _ hlt]
      exact List.getElem_mem hlt
    exact splitOnChar_not_mem '/' url _ hmem
  · decide

/-- Python truthiness of an `Optional[str]`: `None` and the empty string are falsy. -/
def optTruthy : Option Str → Bool
  | none => false
  | some s => !s.isEmpty

/-- The header-derived name hint of lines 262-264: the disposition name if
truthy, else the redirect basename. -/
def hintCandidate (headers : Str) : Option Str :=
  if optTruthy (_disposition_filename headers) then _disposition_filename headers
  else _redirect_basename headers

/-- Lines 262-267 of `infer_filename`: disposition hint, else redirect hint,
else the query/fragment-stripped URL basename. -/
def hintName (url headers : Str) : Str :=
  if optTruthy (hintCandidate headers) then (hintCandidate headers).getD []
  else basename (takeUntil '#' (takeUntil '?' url))

/-- Lines 269-271 of `infer_filename`: a name that is empty or a bare
extension token is replaced by a synthetic name. -/
def resolveBare (url dext name : Str) : Str :=
  if lower name ∈ [("mkv".data), ("mp4".data), ([] : Str)] then
    fallbackStem url ++ '.' :: dext
  else name

/-- Lines 273-277 of `infer_filename`: extension normalization to the desired one. -/
def normalizeExt (dext name : Str) : Str :=
  if lower (splitext name).2 ∉ [(".mkv".data), (".mp4".data)] then name ++ '.' :: dext
  else if (lower (splitext name).2).dropWhile (fun c => decide (c = '.')) ≠ lower dext then
    (splitext name).1 ++ '.' :: dext
  else name

/-- `infer_filename` (lines 261-278). -/
def infer_filename (url headers dext : Str) : Str :=
  basename (normalizeExt dext (resolveBare url dext (hintName url headers)))

theorem lower_append (a b : Str) : lower (a ++ b) = lower a ++ lower b :=
  List.map_append _ a b

theorem lower_dot_cons (a : Str) : lower ('.' :: a) = '.' :: lower a := by
  have h : Char.toLower '.' = '.' := by decide
  simp [lower, h]

theorem dispositionOfLine_no_slash {line n : Str}
    (h : dispositionOfLine line = some n) : '/' ∉ n := by
  unfold dispositionOfLine at h
  split at h
  · cases Option.some.inj h
    exact basename_no_slash _
  · cases h

theorem _disposition_filename_no_slash {headers n : Str}
    (h : _disposition_filename headers = some n) : '/' ∉ n := by
  unfold _disposition_filename at h
  obtain ⟨line, _, hline⟩ := List.exists_of_findSome?_eq_some h
  exact dispositionOfLine_no_slash hline

theorem _redirect_basename_no_slash {headers n : Str}
    (h : _redirect_basename headers = some n) : '/' ∉ n := by
  unfold _redirect_basename at h
  split at h
  · split at h
    · cases Option.some.inj h
      exact basename_no_slash _
    · cases h
  · cases h

theorem hintCandidate_no_slash {headers n : Str}
    (h : hintCandidate headers = some n) : '/' ∉ n := by
  unfold hintCandidate at h
  split at h
  · exact _disposition_filename_no_slash h
  · exact _redirect_basename_no_slash h

theorem hintName_no_slash (url headers : Str) : '/' ∉ hintName url headers := by
  unfold hintName
  split
  · cases hc : hintCandidate headers with
    | none => simp [hc]
    | some s => simpa using hintCandidate_no_slash hc
  · exact basename_no_slash _

theorem resolveBare_no_slash {dext name : Str} (url : Str)
    (hd : '/' ∉ dext) (hn : '/' ∉ name) : '/' ∉ resolveBare url dext name := by
  unfold resolveBare
  split
  · intro hmem
    rcases List.mem_append.mp hmem with h1 | h1
    · exact fallbackStem_no_slash url h1
    · rcases List.mem_cons.mp h1 with h2 | h2
      · exact absurd h2 (by decide)
      · exact hd h2
  · exact hn

theorem normalizeExt_shape {dext name : Str} (hd : '/' ∉ dext) (hn : '/' ∉ name) :
    normalizeExt dext name ≠ [] ∧ '/' ∉ normalizeExt dext name ∧
      ('.' :: lower dext) <:+ lower (normalizeExt dext name) := by
  have happend : ∀ base : Str, '/' ∉ base →
      base ++ '.' :: dext ≠ [] ∧ '/' ∉ base ++ '.' :: dext ∧
        ('.' :: lower dext) <:+ lower (base ++ '.' :: dext) := by
    intro base hb
    refine ⟨by simp, ?_, ?_⟩
    · intro hmem
      rcases List.mem_append.mp hmem with h1 | h1
      · exact hb h1
      · rcases List.mem_cons.mp h1 with h2 | h2
        · exact absurd h2 (by decide)
        · exact hd h2
    · rw [lower_append, lower_dot_cons]
      exact List.suffix_append _ _
  unfold normalizeExt
  split
  · exact happend name hn
  · split
    · exact happend (splitext name).1
        (fun hmem => hn (((splitext_fst_pre name).sublist).subset hmem))
    · rename_i hmem0 heq0
      rw [not_not] at hmem0
      rw [not_ne_iff] at heq0
      have hsuf : (splitext name).2 <:+ name := splitext_snd_suffix name
      have hmain : ('.' :: lower dext) <:+ lower name ∧ name ≠ [] := by
        simp only [List.mem_cons, List.not_mem_nil, or_false] at hmem0
        rcases hmem0 with hval | hval
        · have hred : ((".mkv".data).dropWhile (fun c => decide (c = '.'))) = ("mkv".data) := by
            decide
          rw [hval, hred] at heq0
          have hgoal : ('.' :: lower dext) = lower (splitext name).2 := by
            rw [← heq0, hval]
          constructor
          · rw [hgoal]
            exact List.IsSuffix.map _ hsuf
          · intro hh
            rw [hh] at hval
            exact absurd hval (by decide)
        · have hred : ((".mp4".data).dropWhile (fun c => decide (c = '.'))) = ("mp4".data) := by
            decide
          rw [hval, hred] at heq0
          have hgoal : ('.' :: lower dext) = lower (splitext name).2 := by
            rw [← heq0, hval]
          constructor
          · rw [hgoal]
            exact List.IsSuffix.map _ hsuf
          · intro hh
            rw [hh] at hval
            exact absurd hval (by decide)
      exact ⟨hmain.2, hn, hmain.1⟩

/-- C2: for every URL, probe-headers string and desired extension (an
extension token, so it contains no path separator), `infer_filename` returns
a nonempty name with no directory components that ends in
`.{desired_extension}` compared case-insensitively. -/
theorem C2_infer_filename_shape (url headers dext : Str) (hd : '/' ∉ dext) :
    infer_filename url headers dext ≠ [] ∧ '/' ∉ infer_filename url headers dext ∧
      ('.' :: lower dext) <:+ lower (infer_filename url headers dext) := by
  have h0 := hintName_no_slash url headers
  have h1 := resolveBare_no_slash url hd h0
  have h2 := normalizeExt_shape hd h1
  unfold infer_filename
  rw [basename_of_no_slash h2.2.1]
  exact h2

/-- Witness for C2 at a concrete URL, empty probe headers and extension `mkv`. -/
theorem C2_witness :
    ('/' ∉ ("mkv".data)) ∧
      (infer_filename ("https://x.test/stream".data) [] ("mkv".data) ≠ [] ∧
        '/' ∉ infer_filename ("https://x.test/stream".data) [] ("mkv".data) ∧
        ('.' :: lower ("mkv".data)) <:+
          lower (infer_filename ("https://x.test/stream".data) [] ("mkv".data))) :=
  ⟨by decide, C2_infer_filename_shape _ _ _ (by decide)⟩

/-- C8 counterexample: for the URL `https://x.test/.mkv` the query/fragment-
stripped basename `.mkv` already ends in `.mkv`, yet `infer_filename` with
empty probe headers returns `.mkv.mkv`, not that basename unchanged (Python's
`splitext` sees no extension in the dotfile `.mkv` and appends another one). -/
theorem C8_counterexample :
    ('.' :: ("mkv".data)) <:+ basename (takeUntil '#' (takeUntil '?' ("https://x.test/.mkv".data)))
      ∧ infer_filename ("https://x.test/.mkv".data) [] ("mkv".data)
        ≠ basename (takeUntil '#' (takeUntil '?' ("https://x.test/.mkv".data))) := by
  constructor
  · decide
  · decide

/-- C8 amended: filename inference is idempotent on URLs whose
query/fragment-stripped basename carries the desired extension as an actual
`splitext` extension (a last dot preceded by some non-dot character, so bare
dotfiles like `.mkv` are excluded), for the two known video extensions:
`infer_filename` with empty probe headers returns that basename unchanged. -/
theorem C8_inference_idempotent (url dext : Str)
    (hE : dext = ("mkv".data) ∨ dext = ("mp4".data))
    (hsplit : lower (splitext (basename (takeUntil '#' (takeUntil '?' url)))).2 = '.' :: dext) :
    infer_filename url [] dext = basename (takeUntil '#' (takeUntil '?' url)) := by
  have hbb : basename (basename (takeUntil '#' (takeUntil '?' url)))
      = basename (takeUntil '#' (takeUntil '?' url)) := basename_idem _
  have hne2 : (splitext (basename (takeUntil '#' (takeUntil '?' url)))).2 ≠ [] := by
    intro hh
    rw [hh] at hsplit
    exact List.cons_ne_nil _ _ hsplit.symm
  have hdotb : '.' ∈ basename (takeUntil '#' (takeUntil '?' url)) := by
    have h3 := splitext_snd_ne_nil_dot_mem hne2
    rw [hbb] at h3
    exact (List.dropWhile_sublist _).mem h3
  have hbare : lower (basename (takeUntil '#' (takeUntil '?' url)))
      ∉ [("mkv".data), ("mp4".data), ([] : Str)] := by
    intro hmem
    have hdd : Char.toLower '.' = '.' := by decide
    have hdotl : '.' ∈ lower (basename (takeUntil '#' (takeUntil '?' url))) := by
      have := List.mem_map_of_mem Char.toLower hdotb
      rwa [hdd] at this
    simp only [List.mem_cons, List.not_mem_nil, or_false] at hmem
    rcases hmem with h | h | h <;> rw [h] at hdotl <;> exact absurd hdotl (by decide)
  have hhint : hintName url [] = basename (takeUntil '#' (takeUntil '?' url)) := rfl
  have hres : resolveBare url dext (basename (takeUntil '#' (takeUntil '?' url)))
      = basename (takeUntil '#' (takeUntil '?' url)) := by
    unfold resolveBare
    rw [if_neg hbare]
  have hnorm : normalizeExt dext (basename (takeUntil '#' (takeUntil '?' url)))
      = basename (takeUntil '#' (takeUntil '?' url)) := by
    unfold normalizeExt
    have hmkv : lower ("mkv".data) = ("mkv".data) := by decide
    have hmp4 : lower ("mp4".data) = ("mp4".data) := by decide
    rcases hE with hE | hE <;> subst hE <;> rw [hsplit] <;> simp [hmkv, hmp4]
  unfold infer_filename
  rw [hhint, hres, hnorm, hbb]

/-- Witness for the amended C8 at the URL `https://x.test/a.mkv`. -/
theorem C8_witness :
    infer_filename ("https://x.test/a.mkv".data) [] ("mkv".data)
      = basename (takeUntil '#' (takeUntil '?' ("https://x.test/a.mkv".data))) :=
  C8_inference_idempotent _ _ (Or.inl rfl) (by decide)

/-- The `Job` dataclass (lines 30-39); the private `_proc` process handle is
transport state, not data, and lives in the transport oracles instead. -/
structure Job where
  url : Str
  ext : Str
  name : Option Str
  expected_bytes : Option Int
  out_path : Option Str
  status : Str
  message : Str
deriving DecidableEq

def stQUEUED : Str := ("QUEUED".data)

def stRUNNING : Str := ("RUNNING".data)

def stDONE : Str := ("DONE".data)

def stSKIP : Str := ("SKIP".data)

def stFAIL : Str := ("FAIL".data)

def stPAUSED : Str := ("PAUSED".data)

/-- `prepare_jobs` (lines 280-295).  The metadata probe (`_curl_headers`) and
the filesystem existence check (`Path.exists`) are external collaborators,
passed as the oracles `probe` and `fexists`; the source deliberately passes
`None` instead of its `auth_cookies` argument to the probe (line 284), and
`target_dir / name` is the slash join since inferred names are basenames. -/
def prepare_jobs (probe : Str → Option Str → Str) (fexists : Str → Bool)
    (urls : List Str) (desired_ext : Str) (target_dir : Str)
    (auth_cookies : Option Str) : List Job :=
  match urls with
  | [] => []
  | u :: rest =>
    if url_matches_extension u desired_ext
        || isSuf ('.' :: desired_ext) (lower (infer_filename u (probe u none) desired_ext)) then
      { url := u, ext := desired_ext,
        name := some (infer_filename u (probe u none) desired_ext),
        expected_bytes := _content_length (probe u none),
        out_path := some (target_dir ++ '/' :: infer_filename u (probe u none) desired_ext),
        status := if fexists (target_dir ++ '/' :: infer_filename u (probe u none) desired_ext)
                  then stSKIP else stQUEUED,
        message := [] }
        :: prepare_jobs probe fexists rest desired_ext target_dir auth_cookies
    else prepare_jobs probe fexists rest desired_ext target_dir auth_cookies

/-- C6: every job emitted by `prepare_jobs` carries an output path
`target_dir/name`, and its status is `SKIP` exactly when the filesystem
reports a file at that path at preparation time, `QUEUED` otherwise. -/
theorem C6_skip_iff_exists (probe : Str → Option Str → Str) (fexists : Str → Bool)
    (urls : List Str) (dext dir : Str) (auth : Option Str) :
    ∀ j ∈ prepare_jobs probe fexists urls dext dir auth,
      ∃ out, j.out_path = some out ∧
        (∃ nm, j.name = some nm ∧ out = dir ++ '/' :: nm) ∧
        (j.status = stSKIP ↔ fexists out = true) ∧
        (j.status ≠ stSKIP → j.status = stQUEUED) := by
  induction urls with
  | nil =>
    intro j hj
    simp [prepare_jobs] at hj
  | cons u rest ih =>
    intro j hj
    simp only [prepare_jobs] at hj
    split at hj
    · rcases List.mem_cons.mp hj with h | h
      · subst h
        by_cases hf : fexists (dir ++ '/' :: infer_filename u (probe u none) dext) = true
        · exact ⟨_, rfl, ⟨_, rfl, rfl⟩, by simp [hf], by simp [hf]⟩
        · refine ⟨_, rfl, ⟨_, rfl, rfl⟩, ?_, ?_⟩
          · simp only [hf, iff_false, if_neg hf]
            decide
          · intro _
            simp [if_neg hf]
      · exact ih j h
    · exact ih j hj

/-- Witness for C6: a prepared job for an already-present file is `SKIP`. -/
theorem C6_witness :
    ∃ out, (Job.mk ("https://x.test/a.mkv".data) ("mkv".data) (some ("a.mkv".data)) none
        (some ("d/a.mkv".data)) stSKIP []).out_path = some out ∧
      (∃ nm, (Job.mk ("https://x.test/a.mkv".data) ("mkv".data) (some ("a.mkv".data)) none
        (some ("d/a.mkv".data)) stSKIP []).name = some nm ∧ out = ("d".data) ++ '/' :: nm) ∧
      ((Job.mk ("https://x.test/a.mkv".data) ("mkv".data) (some ("a.mkv".data)) none
        (some ("d/a.mkv".data)) stSKIP []).status = stSKIP ↔ (fun _ => true) out = true) ∧
      ((Job.mk ("https://x.test/a.mkv".data) ("mkv".data) (some ("a.mkv".data)) none
        (some ("d/a.mkv".data)) stSKIP []).status ≠ stSKIP →
        (Job.mk ("https://x.test/a.mkv".data) ("mkv".data) (some ("a.mkv".data)) none
        (some ("d/a.mkv".data)) stSKIP []).status = stQUEUED) :=
  C6_skip_iff_exists (fun _ _ => []) (fun _ => true) [("https://x.test/a.mkv".data)]
    ("mkv".data) ("d".data) none
    (Job.mk ("https://x.test/a.mkv".data) ("mkv".data) (some ("a.mkv".data)) none
        (some ("d/a.mkv".data)) stSKIP []) (by decide)

theorem prepare_jobs_mem_url (probe : Str → Option Str → Str) (fexists : Str → Bool)
    (urls : List Str) (dext dir : Str) (auth : Option Str) :
    ∀ j ∈ prepare_jobs probe fexists urls dext dir auth, j.url ∈ urls ∧
      (url_matches_extension j.url dext
        || isSuf ('.' :: dext) (lower (infer_filename j.url (probe j.url none) dext))) = true := by
  induction urls with
  | nil =>
    intro j hj
    simp [prepare_jobs] at hj
  | cons u rest ih =>
    intro j hj
    simp only [prepare_jobs] at hj
    split at hj
    · rename_i hkeep
      rcases List.mem_cons.mp hj with h | h
      · subst h
        exact ⟨List.mem_cons_self _ _, hkeep⟩
      · exact ⟨List.mem_cons_of_mem _ (ih j h).1, (ih j h).2⟩
    · exact ⟨List.mem_cons_of_mem _ (ih j hj).1, (ih j hj).2⟩

theorem prepare_jobs_mem_of_keep (probe : Str → Option Str → Str) (fexists : Str → Bool)
    (urls : List Str) (dext dir : Str) (auth : Option Str) :
    ∀ u ∈ urls,
      (url_matches_extension u dext
        || isSuf ('.' :: dext) (lower (infer_filename u (probe u none) dext))) = true →
      ∃ j ∈ prepare_jobs probe fexists urls dext dir auth, j.url = u := by
  induction urls with
  | nil =>
    intro u hu
    simp at hu
  | cons u0 rest ih =>
    intro u hu hkeep
    rcases List.mem_cons.mp hu with h | h
    · subst h
      simp only [prepare_jobs, if_pos hkeep]
      exact ⟨_, List.mem_cons_self _ _, rfl⟩
    · obtain ⟨j, hj, hju⟩ := ih u h hkeep
      refine ⟨j, ?_, hju⟩
      simp only [prepare_jobs]
      split
      · exact List.mem_cons_of_mem _ hj
      · exact hj

/-- C7: a URL whose extension-match predicate holds is never discarded by
`prepare_jobs`; one whose predicate fails is kept exactly when its inferred
filename ends in `.{desired_ext}` case-insensitively (stated for the
lower-case desired extensions of the data model, where the source's
un-lowered suffix test coincides with the case-insensitive one). -/
theorem C7_prefilter (probe : Str → Option Str → Str) (fexists : Str → Bool)
    (urls : List Str) (dext dir : Str) (auth : Option Str)
    (hlow : lower dext = dext) :
    ∀ u ∈ urls,
      (url_matches_extension u dext = true →
        ∃ j ∈ prepare_jobs probe fexists urls dext dir auth, j.url = u) ∧
      (url_matches_extension u dext = false →
        ((∃ j ∈ prepare_jobs probe fexists urls dext dir auth, j.url = u) ↔
          ('.' :: lower dext) <:+ lower (infer_filename u (probe u none) dext))) := by
  intro u hu
  constructor
  · intro hm
    exact prepare_jobs_mem_of_keep probe fexists urls dext dir auth u hu (by rw [hm]; rfl)
  · intro hm
    constructor
    · rintro ⟨j, hj, rfl⟩
      have h2 := (prepare_jobs_mem_url probe fexists urls dext dir auth j hj).2
      rw [hm, Bool.false_or] at h2
      rw [hlow]
      exact isSuf_iff.mp h2
    · intro hsuf
      apply prepare_jobs_mem_of_keep probe fexists urls dext dir auth u hu
      rw [hm, Bool.false_or, isSuf_iff]
      rw [hlow] at hsuf
      exact hsuf

/-- Witness for C7: a URL matching the predicate yields a job. -/
theorem C7_witness :
    ∃ j ∈ prepare_jobs (fun _ _ => []) (fun _ => false) [("https://x.test/a.mkv".data)]
        ("mkv".data) ("d".data) none, j.url = ("https://x.test/a.mkv".data) :=
  (C7_prefilter (fun _ _ => []) (fun _ => false) [("https://x.test/a.mkv".data)]
    ("mkv".data) ("d".data) none (by decide) ("https://x.test/a.mkv".data)
    (by decide)).1 (by decide)

/-- C9: `prepare_jobs` never hands the caller's auth context to the metadata
probe: the probe is always issued with `None` auth, so the job list is
identical under any two auth contexts and depends only on the probe's
unauthenticated behavior. -/
theorem C9_prepare_auth_independent (probe probe2 : Str → Option Str → Str)
    (fexists : Str → Bool) (urls : List Str) (dext dir : Str) (a1 a2 : Option Str) :
    prepare_jobs probe fexists urls dext dir a1 = prepare_jobs probe fexists urls dext dir a2 ∧
      ((∀ u, probe u none = probe2 u none) →
        prepare_jobs probe fexists urls dext dir a1
          = prepare_jobs probe2 fexists urls dext dir a1) := by
  constructor
  · induction urls with
    | nil => rfl
    | cons u rest ih =>
      simp only [prepare_jobs]
      rw [ih]
  · intro hpr
    induction urls with
    | nil => rfl
    | cons u rest ih =>
      simp only [prepare_jobs]
      rw [hpr u, ih]

/-- Witness for C9 at a concrete probe and URL list. -/
theorem C9_witness :
    prepare_jobs (fun _ _ => []) (fun _ => false) [("https://x.test/a.mkv".data)]
        ("mkv".data) ("d".data) none
      = prepare_jobs (fun _ a => if a = none then [] else ("X".data)) (fun _ => false)
        [("https://x.test/a.mkv".data)] ("mkv".data) ("d".data) none :=
  (C9_prepare_auth_independent (fun _ _ => []) (fun _ a => if a = none then [] else ("X".data))
    (fun _ => false) [("https://x.test/a.mkv".data)] ("mkv".data) ("d".data) none none).2
    (fun _ => rfl)

/-- `_current_size` (lines 327-331).  The filesystem is the oracle
`statSize : path → Option Nat`, where `none` models both a missing file and a
`stat` call that raises; the source's `try/except` then yields `0`, and an
unset `out_path` also yields `0`. -/
def _current_size (statSize : Str → Option Nat) (job : Job) : Nat :=
  match job.out_path with
  | none => 0
  | some p =>
    match statSize p with
    | none => 0
    | some n => n

/-- The `ValueError` message raised by `_start_curl` (line 304). -/
def authErrMsg : Str :=
  ("ValueError: Authentication cookies are required for downloads. Please login first.".data)

/-- The failure of the `assert job.out_path is not None` on line 300. -/
def assertErrMsg : Str := ("AssertionError".data)

/-- `_start_curl` (lines 299-325): asserts the output path is set, raises
`ValueError` when the auth-cookie string is absent or empty (Python
truthiness of `not auth_cookies`), and otherwise spawns the curl process —
the spawn itself is transport, so success is modelled as `Except.ok ()`. -/
def _start_curl (job : Job) (auth_cookies : Option Str) : Except Str Unit :=
  if job.out_path = none then Except.error assertErrMsg
  else
    match auth_cookies with
    | none => Except.error authErrMsg
    | some s => if s = [] then Except.error authErrMsg else Except.ok ()

/-- The message `curl exit {returncode}` (line 377). -/
def curlExitMsg (retcode : Int) : Str := ("curl exit ".data) ++ (toString retcode).data

/-- The message `curl exit {returncode} (partial saved)` (line 374). -/
def curlExitPartialMsg (retcode : Int) : Str := curlExitMsg retcode ++ (" (partial saved)".data)

/-- `download_job` (lines 333-378).  The transport is abstracted by the exit
status `retcode` its process eventually reports and by the filesystem oracle
`statSize` as observed when the process has exited; the polling loop itself
only drives the progress callback and is modelled by that final observation
(the asynchronous `KeyboardInterrupt` path is outside the embedding). -/
def download_job (statSize : Str → Option Nat) (job : Job) (auth_cookies : Option Str)
    (retcode : Int) : Except Str Job :=
  if job.status = stSKIP then Except.ok job
  else
    match _start_curl { job with status := stRUNNING } auth_cookies with
    | Except.error e => Except.error e
    | Except.ok _ =>
      Except.ok
        (if retcode = 0 then { job with status := stDONE, message := [] }
         else if 0 < _current_size statSize { job with status := stRUNNING } then
           { job with status := stPAUSED, message := curlExitPartialMsg retcode }
         else { job with status := stFAIL, message := curlExitMsg retcode })

/-- C10: `_current_size` is total — it returns a (non-negative) byte count
for every job and filesystem, and returns `0` whenever the job's output path
is unset or the file cannot be stat'ed; when `stat` succeeds it returns the
reported size. -/
theorem C10_current_size_total (statSize : Str → Option Nat) (job : Job) :
    (job.out_path = none → _current_size statSize job = 0) ∧
      (∀ p, job.out_path = some p → statSize p = none → _current_size statSize job = 0) ∧
      (∀ p n, job.out_path = some p → statSize p = some n → _current_size statSize job = n) := by
  refine ⟨?_, ?_, ?_⟩
  · intro h
    simp [_current_size, h]
  · intro p hp hs
    simp [_current_size, hp, hs]
  · intro p n hp hs
    simp [_current_size, hp, hs]

/-- Witness for C10: a job with no output path has size 0. -/
theorem C10_witness :
    _current_size (fun _ => none)
      (Job.mk ("https://x.test/a.mkv".data) ("mkv".data) none none none stQUEUED []) = 0 :=
  (C10_current_size_total (fun _ => none)
    (Job.mk ("https://x.test/a.mkv".data) ("mkv".data) none none none stQUEUED [])).1 rfl

/-- C1: contrary to the claim, `download_job` does not report every final
transport failure through status and message alone for an absent auth
context: on a non-`SKIP` job with an output path, an absent `auth_cookies`
makes `_start_curl` raise `ValueError` (line 304) before any transport
attempt, and the exception propagates to the caller.  The repo's own tests
(`tests/test_edge_cases.py::test_download_job_curl_failure` and
`test_download_job_partial_file`) and the CLI (`csvdl.py` line 47) call
`download_job` without auth cookies and expect a returned job with status
`FAIL`/`PAUSED`, so the claim reflects the intent and the raise is the bug. -/
theorem C1_absent_auth_raises :
    download_job (fun _ => some 0)
      (Job.mk ("https://x.test/a.mkv".data) ("mkv".data) (some ("a.mkv".data)) none
        (some ("d/a.mkv".data)) stQUEUED []) none 1
      = Except.error authErrMsg := by
  rfl

/-- Observable scheduling events of `download_queue`, in chronological order:
a job is passed through as `SKIP`, a download is started, a download is
reaped after its process exited. -/
inductive QEvent
  | skip (i : Nat)
  | start (i : Nat)
  | finish (i : Nat)
deriving DecidableEq

/-- The transport-behavior oracle for a queue run: for the job at input
position `i`, `dur i` is the number of 1-second waits after its start before
`poll()` reports an exit, `retc i` is the exit status, and `psize i` is the
on-disk size `_current_size` observes at reap time. -/
structure QEnv where
  dur : Nat → Nat
  retc : Nat → Int
  psize : Nat → Nat

/-- An entry of the scheduler's `running_downloads` list (lines 439-443). -/
structure RunningDl where
  idx : Nat
  job : Job
  start : Nat
deriving DecidableEq

/-- The time from which the process of `r` is observed as exited. -/
def ddl (env : QEnv) (r : RunningDl) : Nat := r.start + env.dur r.idx

/-- The terminal classification at reap time (lines 414-424 and 453-463),
identical in the admission-wait and drain loops. -/
def reapClassify (env : QEnv) (i : Nat) (job : Job) : Job :=
  if env.retc i = 0 then { job with status := stDONE, message := [] }
  else if 0 < env.psize i then
    { job with status := stPAUSED, message := curlExitPartialMsg (env.retc i) }
  else { job with status := stFAIL, message := curlExitMsg (env.retc i) }

/-- One scan of `running_downloads` at time `t` (the inner `for` of lines
409-431 and 448-470): finished downloads are classified and removed, in list
order; unfinished ones stay, in order. -/
def reapPass (env : QEnv) (t : Nat) : List RunningDl → List (Nat × Job) × List RunningDl
  | [] => ([], [])
  | r :: rest =>
    if ddl env r ≤ t then
      ((r.idx, reapClassify env r.idx r.job) :: (reapPass env t rest).1,
        (reapPass env t rest).2)
    else ((reapPass env t rest).1, r :: (reapPass env t rest).2)

/-- Termination potential of the polling loops: each pass either reaps a
download or moves every remaining deadline one tick closer. -/
def pot (env : QEnv) (t : Nat) (running : List RunningDl) : Nat :=
  running.length + (running.map (fun r => ddl env r + 1 - t)).sum

theorem reapPass_pot (env : QEnv) (t : Nat) (running : List RunningDl) :
    pot env (t + 1) (reapPass env t running).2 + running.length ≤ pot env t running := by
  induction running with
  | nil => simp [reapPass, pot]
  | cons r rest ih =>
    by_cases hr : ddl env r ≤ t
    · simp only [reapPass, if_pos hr]
      simp only [pot, List.length_cons, List.map_cons, List.sum_cons] at ih ⊢
      omega
    · simp only [reapPass, if_neg hr]
      simp only [pot, List.length_cons, List.map_cons, List.sum_cons] at ih ⊢
      omega

/-- The admission-wait loop of lines 407-434: while the running list is at
capacity, reap finished downloads (appending their classified jobs to
`completed` and one `finish` event each to the trace) and sleep one tick. -/
def waitLoop (env : QEnv) (maxc : Nat) (t : Nat) (running : List RunningDl)
    (completed : List Job) (tr : List QEvent) (hm : 1 ≤ maxc) :
    Nat × List RunningDl × List Job × List QEvent :=
  if _h : maxc ≤ running.length then
    waitLoop env maxc (t + 1) (reapPass env t running).2
      (completed ++ (reapPass env t running).1.map Prod.snd)
      (tr ++ (reapPass env t running).1.map (fun f => QEvent.finish f.1)) hm
  else (t, running, completed, tr)
termination_by pot env t running
decreasing_by
  have hp := reapPass_pot env t running
  have hlen : 1 ≤ running.length := le_trans hm _h
  omega

/-- The drain loop of lines 447-473: reap until `running_downloads` is empty. -/
def drainLoop (env : QEnv) (t : Nat) (running : List RunningDl)
    (completed : List Job) (tr : List QEvent) : List Job × List QEvent :=
  if _h : running = [] then (completed, tr)
  else
    drainLoop env (t + 1) (reapPass env t running).2
      (completed ++ (reapPass env t running).1.map Prod.snd)
      (tr ++ (reapPass env t running).1.map (fun f => QEvent.finish f.1))
termination_by pot env t running
decreasing_by
  have hp := reapPass_pot env t running
  have hlen : 1 ≤ running.length := List.length_pos.mpr _h
  omega

/-- The admission loop of lines 399-443 over the enumerated job list: `SKIP`
jobs are appended to `completed` immediately; any other job waits for a
slot, is started via `_start_curl` (whose `ValueError` and assertion
failures propagate out of `download_queue`) and joins the running list with
the current time as its start time. -/
def admitLoop (env : QEnv) (auth : Option Str) (maxc : Nat) (hm : 1 ≤ maxc) :
    List (Nat × Job) → Nat → List RunningDl → List Job → List QEvent →
      List QEvent × Except Str (Nat × List RunningDl × List Job)
  | [], t, running, completed, tr => (tr, Except.ok (t, running, completed))
  | (i, job) :: rest, t, running, completed, tr =>
    if job.status = stSKIP then
      admitLoop env auth maxc hm rest t running (completed ++ [job]) (tr ++ [QEvent.skip i])
    else
      match waitLoop env maxc t running completed tr hm with
      | (t2, running2, completed2, tr2) =>
        match _start_curl job auth with
        | Except.error e => (tr2, Except.error e)
        | Except.ok _ =>
          admitLoop env auth maxc hm rest t2 (running2 ++ [RunningDl.mk i job t2])
            completed2 (tr2 ++ [QEvent.start i])

/-- `download_queue` (lines 380-476): admit jobs in input order under the
concurrency cap, then drain; returns the chronological event trace together
with the completed list (in completion order) or the exception propagated
from `_start_curl`.  The cap must be positive: with `max_concurrent = 0` the
source's admission `while` never terminates. -/
def download_queue (env : QEnv) (jobs : List Job) (auth : Option Str)
    (maxc : Nat) (hm : 1 ≤ maxc) : List QEvent × Except Str (List Job) :=
  match admitLoop env auth maxc hm jobs.enum 0 [] [] [] with
  | (tr, Except.error e) => (tr, Except.error e)
  | (tr, Except.ok (t, running, completed)) =>
    match drainLoop env t running completed tr with
    | (completed2, tr2) => (tr2, Except.ok completed2)

def startCount (tr : List QEvent) : Nat :=
  tr.countP (fun e => match e with | QEvent.start _ => true | _ => false)

def finishCount (tr : List QEvent) : Nat :=
  tr.countP (fun e => match e with | QEvent.finish _ => true | _ => false)

def startIdxs (tr : List QEvent) : List Nat :=
  tr.filterMap (fun e => match e with | QEvent.start i => some i | _ => none)

/-- The C3 admission invariant over an event trace: over every prefix, at
most `maxc` started downloads are unfinished, and finishes never outnumber
starts. -/
def BoundOK (maxc : Nat) (tr : List QEvent) : Prop :=
  ∀ p, p <+: tr → finishCount p ≤ startCount p ∧ startCount p ≤ finishCount p + maxc

theorem reapClassify_url (env : QEnv) (i : Nat) (job : Job) :
    (reapClassify env i job).url = job.url := by
  unfold reapClassify
  split
  · rfl
  · split
    · rfl
    · rfl

theorem reapClassify_status (env : QEnv) (i : Nat) (job : Job) :
    (reapClassify env i job).status = stDONE ∨ (reapClassify env i job).status = stPAUSED ∨
      (reapClassify env i job).status = stFAIL := by
  unfold reapClassify
  split
  · exact Or.inl rfl
  · split
    · exact Or.inr (Or.inl rfl)
    · exact Or.inr (Or.inr rfl)

theorem reapPass_urls_perm (env : QEnv) (t : Nat) (l : List RunningDl) :
    ((reapPass env t l).1.map (fun f => f.2.url) ++ (reapPass env t l).2.map (fun r => r.job.url)).Perm
      (l.map (fun r => r.job.url)) := by
  induction l with
  | nil => simp [reapPass]
  | cons r rest ih =>
    by_cases hr : ddl env r ≤ t
    · simp only [reapPass, if_pos hr, List.map_cons, List.cons_append]
      rw [reapClassify_url]
      exact (ih.cons r.job.url)
    · simp only [reapPass, if_neg hr, List.map_cons]
      exact List.perm_middle.trans (ih.cons r.job.url)

theorem reapPass_fst_status (env : QEnv) (t : Nat) (l : List RunningDl) :
    ∀ f ∈ (reapPass env t l).1,
      f.2.status = stDONE ∨ f.2.status = stPAUSED ∨ f.2.status = stFAIL := by
  induction l with
  | nil => simp [reapPass]
  | cons r rest ih =>
    intro f hf
    by_cases hr : ddl env r ≤ t
    · simp only [reapPass, if_pos hr] at hf
      rcases List.mem_cons.mp hf with h | h
      · subst h
        exact reapClassify_status env r.idx r.job
      · exact ih f h
    · simp only [reapPass, if_neg hr] at hf
      exact ih f hf

theorem startCount_append (a b : List QEvent) :
    startCount (a ++ b) = startCount a + startCount b := List.countP_append _ a b

theorem finishCount_append (a b : List QEvent) :
    finishCount (a ++ b) = finishCount a + finishCount b := List.countP_append _ a b

theorem startIdxs_append (a b : List QEvent) :
    startIdxs (a ++ b) = startIdxs a ++ startIdxs b := List.filterMap_append a b _

theorem startCount_finish_map (l : List (Nat × Job)) :
    startCount (l.map (fun f => QEvent.finish f.1)) = 0 := by
  induction l with
  | nil => rfl
  | cons f rest ih =>
    simp only [startCount] at ih
    simp [startCount, List.countP_cons, ih]

theorem finishCount_finish_map (l : List (Nat × Job)) :
    finishCount (l.map (fun f => QEvent.finish f.1)) = l.length := by
  induction l with
  | nil => rfl
  | cons f rest ih =>
    simp only [finishCount] at ih
    simp [finishCount, List.countP_cons, ih]

theorem startIdxs_finish_map (l : List (Nat × Job)) :
    startIdxs (l.map (fun f => QEvent.finish f.1)) = [] := by
  induction l with
  | nil => rfl
  | cons f rest ih =>
    simp only [startIdxs] at ih
    simp [startIdxs, List.filterMap_cons, ih]

theorem prefix_append_cases {α : Type} {p a b : List α} (h : p <+: a ++ b) :
    p <+: a ∨ ∃ q, q <+: b ∧ p = a ++ q := by
  induction a generalizing p with
  | nil => exact Or.inr ⟨p, by simpa using h, rfl⟩
  | cons x a2 ih =>
    cases p with
    | nil => exact Or.inl ⟨_, rfl⟩
    | cons y p2 =>
      rw [List.cons_append, List.cons_prefix_cons] at h
      rcases ih h.2 with h3 | ⟨q, hq, rfl⟩
      · exact Or.inl (by rw [h.1]; exact List.cons_prefix_cons.mpr ⟨rfl, h3⟩)
      · exact Or.inr ⟨q, hq, by rw [h.1, List.cons_append]⟩

theorem prefix_singleton {α : Type} {p : List α} {x : α} (h : p <+: [x]) :
    p = [] ∨ p = [x] := by
  cases p with
  | nil => exact Or.inl rfl
  | cons y p2 =>
    rw [List.cons_prefix_cons] at h
    have := List.prefix_nil.mp h.2
    exact Or.inr (by rw [h.1, this])

theorem BoundOK_extend_finishes {maxc : Nat} {tr : List QEvent} {k : Nat}
    (fins : List (Nat × Job)) (hb : BoundOK maxc tr)
    (hcnt : startCount tr = finishCount tr + k) (hfc : fins.length ≤ k) :
    BoundOK maxc (tr ++ fins.map (fun f => QEvent.finish f.1)) := by
  intro p hp
  rcases prefix_append_cases hp with h | ⟨q, hq, rfl⟩
  · exact hb p h
  · have hsub := hq.sublist
    have hs0 : startCount q = 0 :=
      Nat.le_zero.mp (startCount_finish_map fins ▸ hsub.countP_le _)
    have hfq : finishCount q ≤ fins.length :=
      finishCount_finish_map fins ▸ hsub.countP_le _
    have hself := hb tr List.prefix_rfl
    rw [startCount_append, finishCount_append, hs0]
    omega

theorem BoundOK_extend_start {maxc : Nat} {tr : List QEvent} (i : Nat)
    (hb : BoundOK maxc tr) (hroom : startCount tr < finishCount tr + maxc) :
    BoundOK maxc (tr ++ [QEvent.start i]) := by
  intro p hp
  rcases prefix_append_cases hp with h | ⟨q, hq, rfl⟩
  · exact hb p h
  · have hself := hb tr List.prefix_rfl
    rcases prefix_singleton hq with rfl | rfl
    · simpa using hself
    · rw [startCount_append, finishCount_append]
      have h1 : startCount [QEvent.start i] = 1 := rfl
      have h2 : finishCount [QEvent.start i] = 0 := rfl
      omega

theorem BoundOK_extend_skip {maxc : Nat} {tr : List QEvent} (i : Nat)
    (hb : BoundOK maxc tr) : BoundOK maxc (tr ++ [QEvent.skip i]) := by
  intro p hp
  rcases prefix_append_cases hp with h | ⟨q, hq, rfl⟩
  · exact hb p h
  · have hself := hb tr List.prefix_rfl
    rcases prefix_singleton hq with rfl | rfl
    · simpa using hself
    · rw [startCount_append, finishCount_append]
      have h1 : startCount [QEvent.skip i] = 0 := rfl
      have h2 : finishCount [QEvent.skip i] = 0 := rfl
      omega

theorem reapPass_len (env : QEnv) (t : Nat) (l : List RunningDl) :
    (reapPass env t l).1.length + (reapPass env t l).2.length = l.length := by
  induction l with
  | nil => simp [reapPass]
  | cons r rest ih =>
    by_cases hr : ddl env r ≤ t
    · simp only [reapPass, if_pos hr, List.length_cons]
      omega
    · simp only [reapPass, if_neg hr, List.length_cons]
      omega

/-- The scheduler-state invariant tying the trace to the running list: the
trace satisfies the admission bound, unfinished starts equal the running-list
length, and the running list is within the cap. -/
structure QInv (maxc : Nat) (tr : List QEvent) (running : List RunningDl) : Prop where
  bound : BoundOK maxc tr
  count : startCount tr = finishCount tr + running.length
  cap : running.length ≤ maxc

theorem QInv_reap (env : QEnv) {maxc : Nat} {tr : List QEvent} {running : List RunningDl}
    (t : Nat) (hinv : QInv maxc tr running) :
    QInv maxc (tr ++ (reapPass env t running).1.map (fun f => QEvent.finish f.1))
      (reapPass env t running).2 := by
  have hlen := reapPass_len env t running
  refine ⟨?_, ?_, ?_⟩
  · exact BoundOK_extend_finishes (reapPass env t running).1 hinv.bound hinv.count (by omega)
  · rw [startCount_append, finishCount_append, startCount_finish_map, finishCount_finish_map]
    have := hinv.count
    omega
  · have := hinv.cap
    omega

theorem waitLoop_spec (env : QEnv) (maxc : Nat) (hm : 1 ≤ maxc)
    (t : Nat) (running : List RunningDl) (completed : List Job) (tr : List QEvent) :
    QInv maxc tr running →
      (QInv maxc (waitLoop env maxc t running completed tr hm).2.2.2
          (waitLoop env maxc t running completed tr hm).2.1
        ∧ (waitLoop env maxc t running completed tr hm).2.1.length < maxc
        ∧ ((waitLoop env maxc t running completed tr hm).2.2.1.map Job.url
            ++ (waitLoop env maxc t running completed tr hm).2.1.map (fun r => r.job.url)).Perm
            (completed.map Job.url ++ running.map (fun r => r.job.url))
        ∧ (∀ j ∈ (waitLoop env maxc t running completed tr hm).2.2.1,
            j ∈ completed ∨ j.status = stDONE ∨ j.status = stPAUSED ∨ j.status = stFAIL)
        ∧ startIdxs (waitLoop env maxc t running completed tr hm).2.2.2 = startIdxs tr) := by
  induction t, running, completed, tr, hm using waitLoop.induct env maxc with
  | case1 t running completed tr hm hcond ih =>
    intro hinv
    rw [waitLoop, dif_pos hcond]
    obtain ⟨ih1, ih2, ih3, ih4, ih5⟩ := ih (QInv_reap env t hinv)
    refine ⟨ih1, ih2, ?_, ?_, ?_⟩
    · refine ih3.trans ?_
      rw [List.map_append, List.append_assoc, List.map_map]
      exact List.Perm.append_left _ (reapPass_urls_perm env t running)
    · intro j hj
      rcases ih4 j hj with hmem | hst
      · rcases List.mem_append.mp hmem with h1 | h1
        · exact Or.inl h1
        · obtain ⟨f, hf, rfl⟩ := List.mem_map.mp h1
          exact Or.inr (reapPass_fst_status env t running f hf)
      · exact Or.inr hst
    · rw [ih5, startIdxs_append, startIdxs_finish_map, List.append_nil]
  | case2 t running completed tr hm hcond =>
    intro hinv
    rw [waitLoop, dif_neg hcond]
    exact ⟨hinv, show running.length < maxc by omega, List.Perm.refl _,
      fun j hj => Or.inl hj, rfl⟩

theorem drainLoop_spec (env : QEnv) (maxc : Nat)
    (t : Nat) (running : List RunningDl) (completed : List Job) (tr : List QEvent) :
    QInv maxc tr running →
      (BoundOK maxc (drainLoop env t running completed tr).2
        ∧ ((drainLoop env t running completed tr).1.map Job.url).Perm
            (completed.map Job.url ++ running.map (fun r => r.job.url))
        ∧ (∀ j ∈ (drainLoop env t running completed tr).1,
            j ∈ completed ∨ j.status = stDONE ∨ j.status = stPAUSED ∨ j.status = stFAIL)
        ∧ startIdxs (drainLoop env t running completed tr).2 = startIdxs tr) := by
  induction t, running, completed, tr using drainLoop.induct env with
  | case1 t completed tr =>
    intro hinv
    rw [drainLoop, dif_pos rfl]
    exact ⟨hinv.bound, by simp, fun j hj => Or.inl hj, rfl⟩
  | case2 t running completed tr hcond ih =>
    intro hinv
    rw [drainLoop, dif_neg hcond]
    obtain ⟨ih1, ih2, ih3, ih4⟩ := ih (QInv_reap env t hinv)
    refine ⟨ih1, ?_, ?_, ?_⟩
    · refine ih2.trans ?_
      rw [List.map_append, List.append_assoc, List.map_map]
      exact List.Perm.append_left _ (reapPass_urls_perm env t running)
    · intro j hj
      rcases ih3 j hj with hmem | hst
      · rcases List.mem_append.mp hmem with h1 | h1
        · exact Or.inl h1
        · obtain ⟨f, hf, rfl⟩ := List.mem_map.mp h1
          exact Or.inr (reapPass_fst_status env t running f hf)
      · exact Or.inr hst
    · rw [ih4, startIdxs_append, startIdxs_finish_map, List.append_nil]

theorem admitLoop_spec (env : QEnv) (auth : Option Str) (maxc : Nat) (hm : 1 ≤ maxc)
    (l : List (Nat × Job)) (t : Nat) (running : List RunningDl) (completed : List Job)
    (tr : List QEvent) :
    QInv maxc tr running →
    List.Chain' (· < ·) (startIdxs tr ++ l.map Prod.fst) →
      (BoundOK maxc (admitLoop env auth maxc hm l t running completed tr).1
        ∧ List.Chain' (· < ·) (startIdxs (admitLoop env auth maxc hm l t running completed tr).1)
        ∧ ∀ t2 rs2 comp2,
            (admitLoop env auth maxc hm l t running completed tr).2
              = Except.ok (t2, rs2, comp2) →
            QInv maxc (admitLoop env auth maxc hm l t running completed tr).1 rs2
            ∧ (comp2.map Job.url ++ rs2.map (fun r => r.job.url)).Perm
                (completed.map Job.url ++ running.map (fun r => r.job.url)
                  ++ l.map (fun pr => pr.2.url))
            ∧ ∀ j ∈ comp2, j ∈ completed ∨ j.status = stDONE ∨ j.status = stPAUSED
                ∨ j.status = stFAIL ∨ j.status = stSKIP) := by
  induction l, t, running, completed, tr using admitLoop.induct env auth maxc hm with
  | case1 t running completed tr =>
    intro hinv hchain
    rw [admitLoop]
    refine ⟨hinv.bound, by simpa using hchain, ?_⟩
    intro t2 rs2 comp2 heq
    simp only [Except.ok.injEq, Prod.mk.injEq] at heq
    obtain ⟨rfl, rfl, rfl⟩ := heq
    exact ⟨hinv, by simp, fun j hj => Or.inl hj⟩
  | case2 i job rest t running completed tr hskip ih =>
    intro hinv hchain
    rw [admitLoop, if_pos hskip]
    have hQ : QInv maxc (tr ++ [QEvent.skip i]) running := by
      refine ⟨BoundOK_extend_skip i hinv.bound, ?_, hinv.cap⟩
      rw [startCount_append, finishCount_append]
      have h1 : startCount [QEvent.skip i] = 0 := rfl
      have h2 : finishCount [QEvent.skip i] = 0 := rfl
      have := hinv.count
      omega
    have hchain2 : List.Chain' (· < ·) (startIdxs (tr ++ [QEvent.skip i])
        ++ rest.map Prod.fst) := by
      rw [startIdxs_append]
      have h1 : startIdxs [QEvent.skip i] = [] := rfl
      rw [h1, List.append_nil]
      rw [List.map_cons] at hchain
      exact hchain.sublist ((List.sublist_cons_self i (rest.map Prod.fst)).append_left _)
    obtain ⟨ih1, ih2, ih3⟩ := ih hQ hchain2
    refine ⟨ih1, ih2, ?_⟩
    intro t2 rs2 comp2 heq
    obtain ⟨ok1, ok2, ok3⟩ := ih3 t2 rs2 comp2 heq
    refine ⟨ok1, ?_, ?_⟩
    · refine ok2.trans ?_
      rw [List.perm_iff_count]
      intro x
      simp only [List.count_append, List.map_append, List.map_cons, List.count_cons,
        List.map_nil, List.count_nil]
      omega
    · intro j hj
      rcases ok3 j hj with hmem | hst
      · rcases List.mem_append.mp hmem with h1 | h1
        · exact Or.inl h1
        · have : j = job := by simpa using h1
          subst this
          exact Or.inr (Or.inr (Or.inr (Or.inr hskip)))
      · exact Or.inr hst
  | case3 i job rest t running completed tr hns t2 running2 completed2 tr2 heqw e herr =>
    intro hinv hchain
    rw [admitLoop, if_neg hns, heqw, herr]
    obtain ⟨hw1, hw2, hw3, hw4, hw5⟩ := waitLoop_spec env maxc hm t running completed tr hinv
    simp only [heqw] at hw1 hw2 hw3 hw4 hw5
    refine ⟨hw1.bound, ?_, ?_⟩
    · rw [hw5]
      rw [List.map_cons] at hchain
      exact hchain.sublist (List.sublist_append_left _ _)
    · intro t3 rs3 comp3 h
      exact Except.noConfusion h
  | case4 i job rest t running completed tr hns t2 running2 completed2 tr2 heqw u hok ih =>
    intro hinv hchain
    rw [admitLoop, if_neg hns, heqw, hok]
    obtain ⟨hw1, hw2, hw3, hw4, hw5⟩ := waitLoop_spec env maxc hm t running completed tr hinv
    simp only [heqw] at hw1 hw2 hw3 hw4 hw5
    have hQ : QInv maxc (tr2 ++ [QEvent.start i])
        (running2 ++ [RunningDl.mk i job t2]) := by
      refine ⟨BoundOK_extend_start i hw1.bound ?_, ?_, ?_⟩
      · have := hw1.count
        omega
      · rw [startCount_append, finishCount_append]
        have h1 : startCount [QEvent.start i] = 1 := rfl
        have h2 : finishCount [QEvent.start i] = 0 := rfl
        have := hw1.count
        simp only [List.length_append, List.length_singleton]
        omega
      · simp only [List.length_append, List.length_singleton]
        omega
    have hchain2 : List.Chain' (· < ·) (startIdxs (tr2 ++ [QEvent.start i])
        ++ rest.map Prod.fst) := by
      rw [startIdxs_append, hw5]
      have h1 : startIdxs [QEvent.start i] = [i] := rfl
      rw [h1, List.append_assoc]
      rw [List.map_cons] at hchain
      exact hchain
    obtain ⟨ih1, ih2, ih3⟩ := ih hQ hchain2
    refine ⟨ih1, ih2, ?_⟩
    intro t3 rs3 comp3 heq
    obtain ⟨ok1, ok2, ok3⟩ := ih3 t3 rs3 comp3 heq
    refine ⟨ok1, ?_, ?_⟩
    · rw [List.perm_iff_count] at ok2 hw3 ⊢
      intro x
      have h1 := ok2 x
      have h2 := hw3 x
      simp only [List.count_append, List.map_append, List.map_cons, List.count_cons,
        List.map_nil, List.count_nil] at h1 h2 ⊢
      omega
    · intro j hj
      rcases ok3 j hj with hmem | hst
      · rcases hw4 j hmem with h1 | h1
        · exact Or.inl h1
        · exact Or.inr (by tauto)
      · exact Or.inr hst

theorem BoundOK_start_slot {maxc : Nat} {tr : List QEvent} (hb : BoundOK maxc tr) :
    ∀ p i q, tr = p ++ QEvent.start i :: q → startCount p < finishCount p + maxc := by
  intro p i q hdec
  have hpre : p ++ [QEvent.start i] <+: tr := ⟨q, by rw [hdec]; simp⟩
  have h2 := (hb _ hpre).2
  rw [startCount_append, finishCount_append] at h2
  have h3 : startCount [QEvent.start i] = 1 := rfl
  have h4 : finishCount [QEvent.start i] = 0 := rfl
  omega

theorem QInv_nil (maxc : Nat) : QInv maxc [] [] := by
  have h0 : startCount [] = 0 := rfl
  have h1 : finishCount [] = 0 := rfl
  refine ⟨?_, ?_, ?_⟩
  · intro p hp
    rw [List.prefix_nil.mp hp]
    omega
  · simp [h0, h1]
  · simp

theorem chain0_enum (jobs : List Job) :
    List.Chain' (· < ·) (startIdxs [] ++ jobs.enum.map Prod.fst) := by
  have h1 : startIdxs [] = [] := rfl
  rw [h1, List.nil_append, List.enum_map_fst]
  exact (List.pairwise_lt_range _).chain'

/-- C3: over any run of `download_queue` with a positive concurrency limit,
the event trace shows that downloads are started strictly in input order, at
no point are more than `concurrency_limit` started-but-unfinished downloads
in flight, and a download only ever starts when the in-flight count is
strictly below the limit (a slot has been freed by a finished download). -/
theorem C3_queue_admission (env : QEnv) (jobs : List Job) (auth : Option Str)
    (maxc : Nat) (hm : 1 ≤ maxc) :
    BoundOK maxc (download_queue env jobs auth maxc hm).1
    ∧ List.Chain' (· < ·) (startIdxs (download_queue env jobs auth maxc hm).1)
    ∧ (∀ p i q, (download_queue env jobs auth maxc hm).1 = p ++ QEvent.start i :: q →
        startCount p < finishCount p + maxc) := by
  obtain ⟨hb, hc, hok⟩ := admitLoop_spec env auth maxc hm jobs.enum 0 [] [] []
    (QInv_nil maxc) (chain0_enum jobs)
  unfold download_queue
  rcases hres : admitLoop env auth maxc hm jobs.enum 0 [] [] [] with ⟨tr, ex⟩
  rw [hres] at hb hc hok
  cases ex with
  | error e =>
    exact ⟨hb, hc, BoundOK_start_slot hb⟩
  | ok st =>
    obtain ⟨t, running, completed⟩ := st
    obtain ⟨hA1, hA2, hA3⟩ := hok t running completed rfl
    obtain ⟨hd1, hd2, hd3, hd4⟩ := drainLoop_spec env maxc t running completed tr hA1
    refine ⟨?_, ?_, ?_⟩
    · show BoundOK maxc (drainLoop env t running completed tr).2
      exact hd1
    · show List.Chain' (· < ·) (startIdxs (drainLoop env t running completed tr).2)
      rw [hd4]
      exact hc
    · show ∀ p i q, (drainLoop env t running completed tr).2 = p ++ QEvent.start i :: q → _
      exact fun p i q hdec => BoundOK_start_slot hd1 p i q hdec

/-- Witness for C3 with limit 1 and the empty trace prefix. -/
theorem C3_witness :
    finishCount [] ≤ startCount [] ∧ startCount [] ≤ finishCount [] + 1 :=
  (C3_queue_admission (QEnv.mk (fun _ => 0) (fun _ => 0) (fun _ => 0)) [] none 1
    (by decide)).1 [] ⟨_, rfl⟩

theorem admitLoop_ok (env : QEnv) (auth : Option Str) (maxc : Nat) (hm : 1 ≤ maxc)
    (hauth : ∃ a, auth = some a ∧ a ≠ [])
    (l : List (Nat × Job)) (t : Nat) (running : List RunningDl) (completed : List Job)
    (tr : List QEvent) :
    (∀ pr ∈ l, (pr : Nat × Job).2.status ≠ stSKIP → pr.2.out_path ≠ none) →
      ∃ st, (admitLoop env auth maxc hm l t running completed tr).2 = Except.ok st := by
  induction l, t, running, completed, tr using admitLoop.induct env auth maxc hm with
  | case1 t running completed tr =>
    intro _
    rw [admitLoop]
    exact ⟨_, rfl⟩
  | case2 i job rest t running completed tr hskip ih =>
    intro hjobs
    rw [admitLoop, if_pos hskip]
    exact ih (fun pr hpr => hjobs pr (List.mem_cons_of_mem _ hpr))
  | case3 i job rest t running completed tr hns t2 running2 completed2 tr2 heqw e herr =>
    intro hjobs
    exfalso
    obtain ⟨a, rfl, ha⟩ := hauth
    have hout := hjobs (i, job) (List.mem_cons_self _ _) hns
    unfold _start_curl at herr
    rw [if_neg hout] at herr
    simp [ha] at herr
  | case4 i job rest t running completed tr hns t2 running2 completed2 tr2 heqw u hok ih =>
    intro hjobs
    rw [admitLoop, if_neg hns, heqw, hok]
    exact ih (fun pr hpr => hjobs pr (List.mem_cons_of_mem _ hpr))

/-- C4 amended: on a run that raises no auth/assert contract violation
(auth context present and non-empty, every non-`SKIP` job has an output
path), `download_queue` returns the same jobs — as a multiset, witnessed by
their immutable URLs — each in a terminal state (`DONE`, `FAIL`, `PAUSED` or
`SKIP`, never `RUNNING` or `QUEUED`); the returned order however is
completion order with `SKIP` jobs at their admission points, not necessarily
the input order (see the counterexample). -/
theorem C4_queue_terminal_perm (env : QEnv) (jobs : List Job) (auth : Option Str)
    (maxc : Nat) (hm : 1 ≤ maxc)
    (hauth : ∃ a, auth = some a ∧ a ≠ [])
    (hout : ∀ j ∈ jobs, j.status ≠ stSKIP → j.out_path ≠ none) :
    ∃ res, (download_queue env jobs auth maxc hm).2 = Except.ok res ∧
      (res.map Job.url).Perm (jobs.map Job.url) ∧
      ∀ j ∈ res, j.status = stDONE ∨ j.status = stFAIL ∨ j.status = stPAUSED
        ∨ j.status = stSKIP := by
  have hjobs : ∀ pr ∈ jobs.enum, (pr : Nat × Job).2.status ≠ stSKIP
      → pr.2.out_path ≠ none := by
    intro pr hpr
    apply hout
    have h1 : pr.2 ∈ jobs.enum.map Prod.snd := List.mem_map_of_mem _ hpr
    rwa [List.enum_map_snd] at h1
  obtain ⟨hb, hc, hok⟩ := admitLoop_spec env auth maxc hm jobs.enum 0 [] [] []
    (QInv_nil maxc) (chain0_enum jobs)
  obtain ⟨st, hst⟩ := admitLoop_ok env auth maxc hm hauth jobs.enum 0 [] [] [] hjobs
  unfold download_queue
  rcases hres : admitLoop env auth maxc hm jobs.enum 0 [] [] [] with ⟨tr, ex⟩
  rw [hres] at hok hst
  obtain ⟨t, running, completed⟩ := st
  have hex : ex = Except.ok (t, running, completed) := hst
  subst hex
  obtain ⟨hA1, hA2, hA3⟩ := hok t running completed rfl
  obtain ⟨hd1, hd2, hd3, hd4⟩ := drainLoop_spec env maxc t running completed tr hA1
  refine ⟨(drainLoop env t running completed tr).1, rfl, ?_, ?_⟩
  · refine (hd2.trans hA2).trans ?_
    simp only [List.map_nil, List.nil_append]
    have h2 : jobs.enum.map (fun pr => pr.2.url) = jobs.map Job.url := by
      rw [show (fun pr : Nat × Job => pr.2.url) = Job.url ∘ Prod.snd from rfl,
        ← List.map_map, List.enum_map_snd]
    rw [h2]
  · intro j hj
    rcases hd3 j hj with hmem | hst3
    · rcases hA3 j hmem with h1 | h1
      · simp at h1
      · tauto
    · tauto

/-- Witness for the amended C4: one queued job with limit 1 completes into a
terminal state. -/
theorem C4_witness :
    ∃ res, (download_queue (QEnv.mk (fun _ => 0) (fun _ => 1) (fun _ => 0))
        [Job.mk ("a".data) ("mkv".data) none none (some ("p".data)) stQUEUED []]
        (some ("c".data)) 1 (by decide)).2 = Except.ok res ∧
      (res.map Job.url).Perm
        ([Job.mk ("a".data) ("mkv".data) none none (some ("p".data)) stQUEUED []].map Job.url) ∧
      ∀ j ∈ res, j.status = stDONE ∨ j.status = stFAIL ∨ j.status = stPAUSED
        ∨ j.status = stSKIP :=
  C4_queue_terminal_perm (QEnv.mk (fun _ => 0) (fun _ => 1) (fun _ => 0))
    [Job.mk ("a".data) ("mkv".data) none none (some ("p".data)) stQUEUED []]
    (some ("c".data)) 1 (by decide) ⟨("c".data), rfl, by decide⟩ (by decide)

/-- C4 counterexample: with a QUEUED job followed by a SKIP job and limit 1,
the source appends the SKIP job to `completed_jobs` while the first job is
still downloading, so the returned list is `[skip-job, first-job]` — it does
not preserve the input order. -/
theorem C4_counterexample :
    (download_queue (QEnv.mk (fun _ => 0) (fun _ => 0) (fun _ => 0))
        [Job.mk ("a".data) ("mkv".data) none none (some ("p".data)) stQUEUED [],
          Job.mk ("s".data) ("mkv".data) none none (some ("q".data)) stSKIP []]
        (some ("c".data)) 1 (by decide)).2
      = Except.ok
        [Job.mk ("s".data) ("mkv".data) none none (some ("q".data)) stSKIP [],
          Job.mk ("a".data) ("mkv".data) none none (some ("p".data)) stDONE []]
      ∧ List.map Job.url
          [Job.mk ("s".data) ("mkv".data) none none (some ("q".data)) stSKIP [],
            Job.mk ("a".data) ("mkv".data) none none (some ("p".data)) stDONE []]
        ≠ List.map Job.url
          [Job.mk ("a".data) ("mkv".data) none none (some ("p".data)) stQUEUED [],
            Job.mk ("s".data) ("mkv".data) none none (some ("q".data)) stSKIP []] := by
  constructor
  · simp [download_queue, admitLoop, waitLoop, drainLoop, reapPass, reapClassify, _start_curl,
      ddl, stQUEUED, stSKIP, stDONE]
  · decide

/-- C5: the terminal classification of a finished transport — success (exit
0) clears the message and marks `DONE`; a non-zero exit with partial bytes on
disk marks `PAUSED` and records the exit code and the partial save; a
non-zero exit with zero bytes marks `FAIL` and records the exit code.
Stated both for the executor `download_job` (lines 367-378) and for the
identical in-queue classification `reapClassify` of `download_queue`
(lines 414-424 and 453-463). -/
theorem C5_terminal_classification (statSize : Str → Option Nat) (job : Job)
    (auth : Option Str) (retcode : Int) (env : QEnv) (i : Nat)
    (hns : job.status ≠ stSKIP) (hout : job.out_path ≠ none)
    (hauth : ∃ a, auth = some a ∧ a ≠ []) :
    ((retcode = 0 →
      download_job statSize job auth retcode
        = Except.ok { job with status := stDONE, message := [] }) ∧
    (retcode ≠ 0 → 0 < _current_size statSize job →
      download_job statSize job auth retcode
        = Except.ok { job with status := stPAUSED, message := curlExitPartialMsg retcode }) ∧
    (retcode ≠ 0 → _current_size statSize job = 0 →
      download_job statSize job auth retcode
        = Except.ok { job with status := stFAIL, message := curlExitMsg retcode })) ∧
    ((env.retc i = 0 →
      reapClassify env i job = { job with status := stDONE, message := [] }) ∧
    (env.retc i ≠ 0 → 0 < env.psize i →
      reapClassify env i job
        = { job with status := stPAUSED, message := curlExitPartialMsg (env.retc i) }) ∧
    (env.retc i ≠ 0 → env.psize i = 0 →
      reapClassify env i job
        = { job with status := stFAIL, message := curlExitMsg (env.retc i) })) := by
  refine ⟨?_, ?_, ?_, ?_⟩
  rotate_left
  · intro h0
    unfold reapClassify
    rw [if_pos h0]
  · intro h0 hpos
    unfold reapClassify
    rw [if_neg h0, if_pos hpos]
  · intro h0 hzero
    unfold reapClassify
    rw [if_neg h0, if_neg (by omega)]
  obtain ⟨a, rfl, ha⟩ := hauth
  have hstart : _start_curl { job with status := stRUNNING } (some a) = Except.ok () := by
    unfold _start_curl
    have h1 : ({ job with status := stRUNNING } : Job).out_path = job.out_path := rfl
    rw [h1, if_neg hout]
    simp [ha]
  have hsize : _current_size statSize { job with status := stRUNNING }
      = _current_size statSize job := rfl
  refine ⟨?_, ?_, ?_⟩
  · intro h0
    unfold download_job
    rw [if_neg hns, hstart]
    simp [h0]
  · intro h0 hpos
    unfold download_job
    rw [if_neg hns, hstart]
    simp [h0, hsize, hpos]
  · intro h0 hzero
    unfold download_job
    rw [if_neg hns, hstart]
    simp [h0, hsize, hzero]

/-- Witness for C5: a failed transport (exit 1) over 512 on-disk bytes yields
`PAUSED` with the partial-save message. -/
theorem C5_witness :
    download_job (fun _ => some 512)
      (Job.mk ("https://x.test/a.mkv".data) ("mkv".data) (some ("a.mkv".data)) none
        (some ("d/a.mkv".data)) stQUEUED []) (some ("sid=1".data)) 1
      = Except.ok { Job.mk ("https://x.test/a.mkv".data) ("mkv".data) (some ("a.mkv".data)) none
        (some ("d/a.mkv".data)) stQUEUED [] with
          status := stPAUSED, message := curlExitPartialMsg 1 } :=
  (C5_terminal_classification (fun _ => some 512)
    (Job.mk ("https://x.test/a.mkv".data) ("mkv".data) (some ("a.mkv".data)) none
      (some ("d/a.mkv".data)) stQUEUED []) (some ("sid=1".data)) 1
    (QEnv.mk (fun _ => 0) (fun _ => 1) (fun _ => 512)) 0
    (by decide) (by decide) ⟨("sid=1".data), rfl, by decide⟩).1.2.1 (by decide) (by decide)

end Csvdl
